import Mathlib

set_option maxHeartbeats 1600000

/-!
Shallow embedding of the libmv mosaicing driver and projection module:

* `ComputeRelativeAffineMatrices` / `ComputeRelativeHomographyMatrices` and
  `ComputeGlobalBoundingBox` from the mosaicing tool,
* `FundamentalRank2Parameterization` (`To` / `From`) from
  `fundamental_parameterization.h`,
* `P_From_KRt`, `KRt_From_P`, `HomogeneousToEuclidean`,
  `EuclideanToHomogeneous` from `projection.cc`.

The source computes with `double`; the embedding uses exact field
arithmetic: `ℚ` where the source needs no square roots (so all results
are decidable by evaluation) and `ℝ` where the source calls `sqrt`
(the Givens rotations of `KRt_From_P`, quaternion normalization).
Division is total in Lean (`x / 0 = 0`); every place where the source
divides by a possibly zero value is noted at the theorem that uses it.
-/

/-- A 2D point or vector (libmv `Vec2`), with coordinates in `α`. -/
structure V2 (α : Type) where
  x : α
  y : α
deriving DecidableEq

/-- A 3-vector (libmv `Vec3`). -/
structure V3 (α : Type) where
  x : α
  y : α
  z : α
deriving DecidableEq

/-- Coefficients of an Eigen quaternion, stored in Eigen's `(x, y, z, w)`
order; `w` is the scalar part. -/
structure V4 (α : Type) where
  x : α
  y : α
  z : α
  w : α
deriving DecidableEq

/-- A 9-dimensional parameter vector (the `Parameters` type of
`FundamentalRank2Parameterization`): `p0..p3` are the coefficients of the
quaternion `u`, `p4` is the scalar `s`, `p5..p8` the coefficients of `vt`. -/
structure V9 (α : Type) where
  p0 : α
  p1 : α
  p2 : α
  p3 : α
  p4 : α
  p5 : α
  p6 : α
  p7 : α
  p8 : α
deriving DecidableEq

/-- A 3x3 matrix (libmv `Mat3`), row major: `mij` is row `i`, column `j`. -/
structure M3 (α : Type) where
  m00 : α
  m01 : α
  m02 : α
  m10 : α
  m11 : α
  m12 : α
  m20 : α
  m21 : α
  m22 : α
deriving DecidableEq

/-- A 3x4 matrix (libmv `Mat34`), row major: `pij` is row `i`, column `j`. -/
structure M34 (α : Type) where
  p00 : α
  p01 : α
  p02 : α
  p03 : α
  p10 : α
  p11 : α
  p12 : α
  p13 : α
  p20 : α
  p21 : α
  p22 : α
  p23 : α
deriving DecidableEq

/-- The bounding box `(xmin, xmax, ymin, ymax)` (libmv `Vec4i`), in the
order the mosaicing code stores it: `bbox(0) = xmin`, `bbox(1) = xmax`,
`bbox(2) = ymin`, `bbox(3) = ymax`. -/
structure Bbox where
  xmin : ℤ
  xmax : ℤ
  ymin : ℤ
  ymax : ℤ
deriving DecidableEq

variable {α : Type}

/-- Matrix product of two 3x3 matrices. -/
def mulM3 [Field α] (A B : M3 α) : M3 α :=
  ⟨A.m00 * B.m00 + A.m01 * B.m10 + A.m02 * B.m20,
   A.m00 * B.m01 + A.m01 * B.m11 + A.m02 * B.m21,
   A.m00 * B.m02 + A.m01 * B.m12 + A.m02 * B.m22,
   A.m10 * B.m00 + A.m11 * B.m10 + A.m12 * B.m20,
   A.m10 * B.m01 + A.m11 * B.m11 + A.m12 * B.m21,
   A.m10 * B.m02 + A.m11 * B.m12 + A.m12 * B.m22,
   A.m20 * B.m00 + A.m21 * B.m10 + A.m22 * B.m20,
   A.m20 * B.m01 + A.m21 * B.m11 + A.m22 * B.m21,
   A.m20 * B.m02 + A.m21 * B.m12 + A.m22 * B.m22⟩

/-- Product of a 3x3 matrix and a 3-vector. -/
def mulM3V3 [Field α] (A : M3 α) (v : V3 α) : V3 α :=
  ⟨A.m00 * v.x + A.m01 * v.y + A.m02 * v.z,
   A.m10 * v.x + A.m11 * v.y + A.m12 * v.z,
   A.m20 * v.x + A.m21 * v.y + A.m22 * v.z⟩

/-- Product of a 3x3 matrix and a 3x4 matrix. -/
def mulM3M34 [Field α] (A : M3 α) (P : M34 α) : M34 α :=
  ⟨A.m00 * P.p00 + A.m01 * P.p10 + A.m02 * P.p20,
   A.m00 * P.p01 + A.m01 * P.p11 + A.m02 * P.p21,
   A.m00 * P.p02 + A.m01 * P.p12 + A.m02 * P.p22,
   A.m00 * P.p03 + A.m01 * P.p13 + A.m02 * P.p23,
   A.m10 * P.p00 + A.m11 * P.p10 + A.m12 * P.p20,
   A.m10 * P.p01 + A.m11 * P.p11 + A.m12 * P.p21,
   A.m10 * P.p02 + A.m11 * P.p12 + A.m12 * P.p22,
   A.m10 * P.p03 + A.m11 * P.p13 + A.m12 * P.p23,
   A.m20 * P.p00 + A.m21 * P.p10 + A.m22 * P.p20,
   A.m20 * P.p01 + A.m21 * P.p11 + A.m22 * P.p21,
   A.m20 * P.p02 + A.m21 * P.p12 + A.m22 * P.p22,
   A.m20 * P.p03 + A.m21 * P.p13 + A.m22 * P.p23⟩

/-- Transpose of a 3x3 matrix. -/
def transposeM3 (A : M3 α) : M3 α :=
  ⟨A.m00, A.m10, A.m20, A.m01, A.m11, A.m21, A.m02, A.m12, A.m22⟩

/-- The 3x3 identity matrix. -/
def id3 [Field α] : M3 α := ⟨1, 0, 0, 0, 1, 0, 0, 0, 1⟩

/-- The 3x3 zero matrix. -/
def m3zero [Field α] : M3 α := ⟨0, 0, 0, 0, 0, 0, 0, 0, 0⟩

/-- The zero 3-vector. -/
def v3zero [Field α] : V3 α := ⟨0, 0, 0⟩

/-- Entrywise negation of a 3x3 matrix (the source's `K = -K`). -/
def negM3 [Field α] (A : M3 α) : M3 α :=
  ⟨-A.m00, -A.m01, -A.m02, -A.m10, -A.m11, -A.m12, -A.m20, -A.m21, -A.m22⟩

/-- Scalar multiple of a 3x3 matrix. -/
def smulM3 [Field α] (c : α) (A : M3 α) : M3 α :=
  ⟨c * A.m00, c * A.m01, c * A.m02, c * A.m10, c * A.m11, c * A.m12,
   c * A.m20, c * A.m21, c * A.m22⟩

/-- Scalar multiple of a 3x4 matrix. -/
def smulM34 [Field α] (c : α) (P : M34 α) : M34 α :=
  ⟨c * P.p00, c * P.p01, c * P.p02, c * P.p03,
   c * P.p10, c * P.p11, c * P.p12, c * P.p13,
   c * P.p20, c * P.p21, c * P.p22, c * P.p23⟩

/-- Diagonal 3x3 matrix with diagonal `(a, b, c)`. -/
def diag3 [Field α] (a b c : α) : M3 α := ⟨a, 0, 0, 0, b, 0, 0, 0, c⟩

/-- Determinant of a 3x3 matrix (cofactor expansion, as Eigen computes it). -/
def det3 [Field α] (A : M3 α) : α :=
  A.m00 * (A.m11 * A.m22 - A.m12 * A.m21)
  - A.m01 * (A.m10 * A.m22 - A.m12 * A.m20)
  + A.m02 * (A.m10 * A.m21 - A.m11 * A.m20)

/-- Trace of a 3x3 matrix. -/
def traceM3 (A : M3 α) [Field α] : α := A.m00 + A.m11 + A.m22

/-- Adjugate (transposed cofactor matrix) of a 3x3 matrix. -/
def adj3 [Field α] (A : M3 α) : M3 α :=
  ⟨A.m11 * A.m22 - A.m12 * A.m21,
   A.m02 * A.m21 - A.m01 * A.m22,
   A.m01 * A.m12 - A.m02 * A.m11,
   A.m12 * A.m20 - A.m10 * A.m22,
   A.m00 * A.m22 - A.m02 * A.m20,
   A.m02 * A.m10 - A.m00 * A.m12,
   A.m10 * A.m21 - A.m11 * A.m20,
   A.m01 * A.m20 - A.m00 * A.m21,
   A.m00 * A.m11 - A.m01 * A.m10⟩

/-- Matrix inverse of a 3x3 matrix, by cofactors over the determinant (this
is how Eigen's fixed-size 3x3 `inverse()` computes it).  Total: on a
singular matrix the division by the determinant is a division by zero,
which Lean evaluates to the zero matrix. -/
def inv3 [Field α] (A : M3 α) : M3 α := smulM3 (det3 A)⁻¹ (adj3 A)

/-- Leading 3x3 block of a 3x4 matrix (the source's `P.block(0, 0, 3, 3)`). -/
def block3 (P : M34 α) : M3 α :=
  ⟨P.p00, P.p01, P.p02, P.p10, P.p11, P.p12, P.p20, P.p21, P.p22⟩

/-- Fourth column of a 3x4 matrix (the source's `P.col(3)`). -/
def col3 (P : M34 α) : V3 α := ⟨P.p03, P.p13, P.p23⟩

/-- Assemble a 3x4 matrix from a 3x3 block and a fourth column. -/
def mk34 (A : M3 α) (v : V3 α) : M34 α :=
  ⟨A.m00, A.m01, A.m02, v.x, A.m10, A.m11, A.m12, v.y,
   A.m20, A.m21, A.m22, v.z⟩

/-- The source's `EuclideanToHomogeneous(const Vec2 &X, Vec3 *H)`:
append a homogeneous coordinate equal to `1`. -/
def EuclideanToHomogeneous [Field α] (X : V2 α) : V3 α := ⟨X.x, X.y, 1⟩

/-- The source's `HomogeneousToEuclidean(const Vec3 &H, Vec2 *X)`:
divide the first two coordinates by the homogeneous coordinate `w = H(2)`.
No zero check is performed by the source; the embedding's division is
total with `x / 0 = 0`. -/
def HomogeneousToEuclidean [Field α] (H : V3 α) : V2 α :=
  ⟨H.x / H.z, H.y / H.z⟩

/-- The source's `P_From_KRt`: `P = K * [R | t]`. -/
def P_From_KRt [Field α] (K R : M3 α) (t : V3 α) : M34 α :=
  mulM3M34 K (mk34 R t)

/-- Modelled from the spec: `ceil0` comes from `libmv/image/image_transform.h`,
which is not under `src/`; §4.4 of the spec describes the rounding as
"round outward (ceiling for all coordinates, consistent in both axes)",
so it is modelled as the integer ceiling.  The source stores the rounded
`double` into the integer bounding box; since the value is integral after
rounding, the embedding returns the integer directly. -/
def ceil0 (q : ℚ) : ℤ := ⌈q⌉

/-- One corner of the image mapped through the cumulated transform `H`,
dehomogenized and rounded, as done inside `ComputeGlobalBoundingBox`:
`q = H * corner; q /= q(2); q(0) = ceil0(q(0)); q(1) = ceil0(q(1))`.
The division by `q(2)` has no zero check in the source; the embedding's
division is total with `x / 0 = 0`. -/
def mapCorner (H : M3 ℚ) (v : V3 ℚ) : ℤ × ℤ :=
  let q := mulM3V3 H v
  (ceil0 (q.x / q.z), ceil0 (q.y / q.z))

/-- The bounding-box update of `ComputeGlobalBoundingBox` for one rounded
corner `(qx, qy)`:
`if (q0 < xmin) xmin = q0; else if (q0 > xmax) xmax = q0;` and the same
for the `y` coordinate. -/
def bboxUpdate (b : Bbox) (p : ℤ × ℤ) : Bbox :=
  let b1 :=
    if p.1 < b.xmin then { b with xmin := p.1 }
    else if p.1 > b.xmax then { b with xmax := p.1 }
    else b
  if p.2 < b1.ymin then { b1 with ymin := p.2 }
  else if p.2 > b1.ymax then { b1 with ymax := p.2 }
  else b1

/-- The four corner columns of `q_bounds` in `ComputeGlobalBoundingBox`,
in the source's column order:
`(0,0,1), (0,h,1), (w,h,1), (w,0,1)`. -/
def cornersOf (w h : ℚ) : List (V3 ℚ) :=
  [⟨0, 0, 1⟩, ⟨0, h, 1⟩, ⟨w, h, 1⟩, ⟨w, 0, 1⟩]

/-- One iteration of the outer loop of `ComputeGlobalBoundingBox`: given the
already cumulated transform `H`, fold the four mapped corners into the
bounding box. -/
def bboxIter (w h : ℚ) (H : M3 ℚ) (b : Bbox) : Bbox :=
  (cornersOf w h).foldl (fun b' v => bboxUpdate b' (mapCorner H v)) b

/-- The loop body of `ComputeGlobalBoundingBox`: cumulate `H = Hs[i] * H`
and expand the bounding box by the four mapped corners. -/
def bboxChainStep (w h : ℚ) (acc : M3 ℚ × Bbox) (Hi : M3 ℚ) : M3 ℚ × Bbox :=
  let Hn := mulM3 Hi acc.1
  (Hn, bboxIter w h Hn acc.2)

/-- The source's `ComputeGlobalBoundingBox(images_size, Hs, bbox)`:
start from `H = I` and `bbox = (W, 0, H, 0)`; for each relative transform,
cumulate `H = Hs[i] * H` and expand the bounding box by the four mapped,
dehomogenized and rounded image corners. -/
def ComputeGlobalBoundingBox (images_size : ℕ × ℕ) (Hs : List (M3 ℚ)) : Bbox :=
  let init : Bbox := ⟨(images_size.1 : ℤ), 0, (images_size.2 : ℤ), 0⟩
  (Hs.foldl (bboxChainStep (images_size.1 : ℚ) (images_size.2 : ℚ))
    (id3, init)).2

/-- Modelled from the spec: `TwoViewPointMatchMatrices` (correspondence
subsystem) and the robust solvers `AffineFromCorrespondences2PointRobust` /
`HomographyFromCorrespondences4PointRobust` are not under `src/`.  The
matches database is modelled as the list of correspondence pairs it yields
for each adjacent image pair (two equal-length point lists), and the robust
solver as an abstract function `fit`; the claims about these functions
concern only the minimal-sample guard, which is in the source:
`if (xs2[0].cols() >= 2) { ...; As->push_back(A); }` with no else branch. -/
def ComputeRelativeAffineMatrices
    (fit : List (V2 ℚ) → List (V2 ℚ) → M3 ℚ)
    (pairs : List (List (V2 ℚ) × List (V2 ℚ))) : List (M3 ℚ) :=
  pairs.foldl
    (fun As xs2 => if 2 ≤ xs2.1.length then As ++ [fit xs2.1 xs2.2] else As)
    []

/-- The homography variant of the chain builder; identical to the affine
one except that the minimal-sample guard is `xs2[0].cols() >= 4`. -/
def ComputeRelativeHomographyMatrices
    (fit : List (V2 ℚ) → List (V2 ℚ) → M3 ℚ)
    (pairs : List (List (V2 ℚ) × List (V2 ℚ))) : List (M3 ℚ) :=
  pairs.foldl
    (fun Hs xs2 => if 4 ≤ xs2.1.length then Hs ++ [fit xs2.1 xs2.2] else Hs)
    []

/-- First Givens step of `KRt_From_P` ("Set K(2,1) to zero"): if
`K(2,1) != 0`, build `Qx` from `c = -K(2,2)`, `s = K(2,1)` normalized by
`l = sqrt(c*c + s*s)`, and update `K = K * Qx`, `Q = Qx^T * Q`. -/
noncomputable def rqStep1 (K Q : M3 ℝ) : M3 ℝ × M3 ℝ :=
  if K.m21 ≠ 0 then
    let c := -K.m22
    let s := K.m21
    let l := Real.sqrt (c * c + s * s)
    let c' := c / l
    let s' := s / l
    let Qx : M3 ℝ := ⟨1, 0, 0, 0, c', -s', 0, s', c'⟩
    (mulM3 K Qx, mulM3 (transposeM3 Qx) Q)
  else (K, Q)

/-- Second Givens step of `KRt_From_P` ("Set K(2,0) to zero"): if
`K(2,0) != 0`, build `Qy` from `c = K(2,2)`, `s = K(2,0)` normalized by
`l`, and update `K = K * Qy`, `Q = Qy^T * Q`. -/
noncomputable def rqStep2 (K Q : M3 ℝ) : M3 ℝ × M3 ℝ :=
  if K.m20 ≠ 0 then
    let c := K.m22
    let s := K.m20
    let l := Real.sqrt (c * c + s * s)
    let c' := c / l
    let s' := s / l
    let Qy : M3 ℝ := ⟨c', 0, s', 0, 1, 0, -s', 0, c'⟩
    (mulM3 K Qy, mulM3 (transposeM3 Qy) Q)
  else (K, Q)

/-- Third Givens step of `KRt_From_P` ("Set K(1,0) to zero") as the source
intends it: if `K(1,0) != 0`, build `Qz` from `c = -K(1,1)`, `s = K(1,0)`
normalized by `l`, and update `K = K * Qz`, `Q = Qz^T * Q`, with `Qz` the
3x3 matrix the comma initializer spells out.  This is NOT what the program
executes on that branch: the source declares `Qz` as a dynamically sized
`Mat` without giving it its 3x3 dimensions first (`Mat Qz;`, unlike
`Mat Qx(3,3)` and `Mat Qy(3,3)` in the two steps above), so the comma
initialization of the 0x0 matrix is an Eigen assertion failure / write
out of bounds and the program crashes; `rqStep3Checked` below models the
step as executed.  This intended-semantics version exists to state what
the decomposition computes on inputs that never enter the broken branch,
and what it would compute were `Qz` given its dimensions. -/
noncomputable def rqStep3 (K Q : M3 ℝ) : M3 ℝ × M3 ℝ :=
  if K.m10 ≠ 0 then
    let c := -K.m11
    let s := K.m10
    let l := Real.sqrt (c * c + s * s)
    let c' := c / l
    let s' := s / l
    let Qz : M3 ℝ := ⟨c', -s', 0, s', c', 0, 0, 0, 1⟩
    (mulM3 K Qz, mulM3 (transposeM3 Qz) Q)
  else (K, Q)

/-- Third Givens step of `KRt_From_P` as the program actually executes it:
the branch guarded by `K(1,0) != 0` computes `c`, `s`, `l` and then
comma-initializes `Mat Qz;` --- a default-constructed, dynamically sized
0x0 matrix that was never resized to 3x3 --- which is an Eigen assertion
failure in debug builds and an out-of-bounds write in release builds.
The program therefore never produces `K * Qz` on this branch; the crash
is modelled as `none`.  On the `K(1,0) == 0` branch nothing happens and
the step returns its inputs. -/
noncomputable def rqStep3Checked (K Q : M3 ℝ) : Option (M3 ℝ × M3 ℝ) :=
  if K.m10 ≠ 0 then none else some (K, Q)

/-- First sign fix of `KRt_From_P`: `if (K(2,2) < 0) { K = -K; R = -R; }`. -/
noncomputable def krtFlip1 (K R : M3 ℝ) : M3 ℝ × M3 ℝ :=
  if K.m22 < 0 then (negM3 K, negM3 R) else (K, R)

/-- Second sign fix of `KRt_From_P`:
`if (K(1,1) < 0) { K = K * S; R = S * R; }` with `S = diag(1, -1, 1)`. -/
noncomputable def krtFlip2 (K R : M3 ℝ) : M3 ℝ × M3 ℝ :=
  if K.m11 < 0 then
    (mulM3 K (diag3 1 (-1) 1), mulM3 (diag3 1 (-1) 1) R)
  else (K, R)

/-- Third sign fix of `KRt_From_P`:
`if (K(0,0) < 0) { K = K * S; R = S * R; }` with `S = diag(-1, 1, 1)`. -/
noncomputable def krtFlip3 (K R : M3 ℝ) : M3 ℝ × M3 ℝ :=
  if K.m00 < 0 then
    (mulM3 K (diag3 (-1) 1 1), mulM3 (diag3 (-1) 1 1) R)
  else (K, R)

/-- The source's `KRt_From_P(P, &K, &R, &t)` under the intended semantics
of the third Givens step (`rqStep3` with a well-formed 3x3 `Qz`):
RQ-decompose the leading 3x3 block by the three Givens steps, fix signs
so the diagonal of `K` is nonnegative, solve `t = K^(-1) * P.col(3)` with
Eigen's cofactor inverse, and finally scale `K` by `1 / K(2,2)`.  The
function has no intentional failure path; for a singular leading block
the inverse and the final scaling divide by zero (total division: the
results are zero).  On inputs whose `K(1,0)` is zero after the first two
steps this agrees with the executed behavior `KRt_From_P_run` below; on
the others the program crashes instead (unsized `Qz`). -/
noncomputable def KRt_From_P (P : M34 ℝ) : M3 ℝ × M3 ℝ × V3 ℝ :=
  let s1 := rqStep1 (block3 P) id3
  let s2 := rqStep2 s1.1 s1.2
  let s3 := rqStep3 s2.1 s2.2
  let f1 := krtFlip1 s3.1 s3.2
  let f2 := krtFlip2 f1.1 f1.2
  let f3 := krtFlip3 f2.1 f2.2
  let t := mulM3V3 (inv3 f3.1) (col3 P)
  (smulM3 (f3.1.m22)⁻¹ f3.1, f3.2, t)

/-- The source's `KRt_From_P` as the program actually executes: identical
to `KRt_From_P` except that the third Givens step is `rqStep3Checked`, so
every input that enters the `K(1,0) != 0` branch crashes on the
comma-initialization of the unsized `Mat Qz` (result `none`) instead of
completing the decomposition. -/
noncomputable def KRt_From_P_run (P : M34 ℝ) : Option (M3 ℝ × M3 ℝ × V3 ℝ) :=
  let s1 := rqStep1 (block3 P) id3
  let s2 := rqStep2 s1.1 s1.2
  match rqStep3Checked s2.1 s2.2 with
  | none => none
  | some s3 =>
    let f1 := krtFlip1 s3.1 s3.2
    let f2 := krtFlip2 f1.1 f1.2
    let f3 := krtFlip3 f2.1 f2.2
    let t := mulM3V3 (inv3 f3.1) (col3 P)
    some (smulM3 (f3.1.m22)⁻¹ f3.1, f3.2, t)

/-- Eigen's `Quaternion::toRotationMatrix()` (external library call),
which applies the unit-quaternion formula directly to the stored
coefficients without normalizing them — exactly what the source's `To`
relies on after assigning an arbitrary 4-vector to the quaternion. -/
def toRotationMatrix [Field α] (q : V4 α) : M3 α :=
  ⟨1 - 2 * (q.y * q.y + q.z * q.z), 2 * (q.x * q.y - q.z * q.w),
     2 * (q.x * q.z + q.y * q.w),
   2 * (q.x * q.y + q.z * q.w), 1 - 2 * (q.x * q.x + q.z * q.z),
     2 * (q.y * q.z - q.x * q.w),
   2 * (q.x * q.z - q.y * q.w), 2 * (q.y * q.z + q.x * q.w),
     1 - 2 * (q.x * q.x + q.y * q.y)⟩

/-- The source's `FundamentalRank2Parameterization::To(p, f)`: read the
(possibly unnormalized) quaternions `u = p[0..3]` and `vt = p[5..8]`,
form `s = 1 / (1 + p[4]^2)` and `S = diag(1, s, 0)`, and return
`f = u.toRotationMatrix() * S * vt.toRotationMatrix()`. -/
def FundamentalRank2To [Field α] (p : V9 α) : M3 α :=
  mulM3
    (mulM3 (toRotationMatrix ⟨p.p0, p.p1, p.p2, p.p3⟩)
      (diag3 1 (1 / (1 + p.p4 * p.p4)) 0))
    (toRotationMatrix ⟨p.p5, p.p6, p.p7, p.p8⟩)

/-- Eigen's `Quaternion::normalize()` (external library call): divide the
coefficients by the quaternion norm. -/
noncomputable def quatNormalize (q : V4 ℝ) : V4 ℝ :=
  let n := Real.sqrt (q.x * q.x + q.y * q.y + q.z * q.z + q.w * q.w)
  ⟨q.x / n, q.y / n, q.z / n, q.w / n⟩

/-- The source's `FundamentalRank2Parameterization::From(f, p)`.  Eigen's
`SVD` of `f` and its rotation-matrix-to-quaternion conversion are external
library calls not part of this repository; they are modelled by passing
the data they produce explicitly: the two singular values `s0 >= s1` used
by the source (the third is ignored by the source) and quaternions `qu`,
`qv` representing the sign-corrected factors (the hypotheses of the
round-trip theorem state exactly the properties Eigen guarantees for them).
With that data the source normalizes both quaternions and stores
`p = (u.coeffs(), sqrt(s0 / s1 - 1), vt.coeffs())`. -/
noncomputable def FundamentalRank2From (s0 s1 : ℝ) (qu qv : V4 ℝ) : V9 ℝ :=
  let u := quatNormalize qu
  let vt := quatNormalize qv
  ⟨u.x, u.y, u.z, u.w, Real.sqrt (s0 / s1 - 1), vt.x, vt.y, vt.z, vt.w⟩

/-- The rank-2 truncation of the singular value decomposition
`M = U * diag(s0, s1, s2) * V^T`: keep the two largest singular values and
replace the third by zero.  By the Eckart-Young theorem this is the
closest rank-2 matrix to `M` in Frobenius norm, which is how the spec
describes the matrix reproduced by `ToMatrix(FromMatrix(M))`. -/
def closestRank2 [Field α] (U V : M3 α) (s0 s1 : α) : M3 α :=
  mulM3 (mulM3 U (diag3 s0 s1 0)) (transposeM3 V)

/-- Predicate: `f` admits a singular value decomposition with the diagonal
`(a, b, c)`: `f = U * diag(a, b, c) * V^T` for matrices `U`, `V` with
orthonormal columns.  When `a >= b >= c >= 0`, this says exactly that the
singular values of `f` are `(a, b, c)`. -/
def hasSVD [Field α] (f : M3 α) (a b c : α) : Prop :=
  ∃ U V : M3 α,
    mulM3 (transposeM3 U) U = id3 ∧
    mulM3 (transposeM3 V) V = id3 ∧
    f = mulM3 (mulM3 U (diag3 a b c)) (transposeM3 V)

theorem mulM3_assoc [Field α] (A B C : M3 α) :
    mulM3 (mulM3 A B) C = mulM3 A (mulM3 B C) := by
  cases A; cases B; cases C
  simp only [mulM3, M3.mk.injEq]
  refine ⟨?_, ?_, ?_, ?_, ?_, ?_, ?_, ?_, ?_⟩ <;> ring

theorem mulM3_id_left [Field α] (A : M3 α) : mulM3 id3 A = A := by
  cases A
  simp only [mulM3, id3, M3.mk.injEq]
  refine ⟨?_, ?_, ?_, ?_, ?_, ?_, ?_, ?_, ?_⟩ <;> ring

theorem mulM3_id_right [Field α] (A : M3 α) : mulM3 A id3 = A := by
  cases A
  simp only [mulM3, id3, M3.mk.injEq]
  refine ⟨?_, ?_, ?_, ?_, ?_, ?_, ?_, ?_, ?_⟩ <;> ring

theorem transposeM3_mul [Field α] (A B : M3 α) :
    transposeM3 (mulM3 A B) = mulM3 (transposeM3 B) (transposeM3 A) := by
  cases A; cases B
  simp only [mulM3, transposeM3, M3.mk.injEq]
  refine ⟨?_, ?_, ?_, ?_, ?_, ?_, ?_, ?_, ?_⟩ <;> ring

theorem transposeM3_transposeM3 (A : M3 α) :
    transposeM3 (transposeM3 A) = A := rfl

theorem det3_mulM3 [Field α] (A B : M3 α) :
    det3 (mulM3 A B) = det3 A * det3 B := by
  cases A; cases B
  simp only [mulM3, det3]
  ring

theorem det3_transposeM3 [Field α] (A : M3 α) :
    det3 (transposeM3 A) = det3 A := by
  cases A
  simp only [transposeM3, det3]
  ring

theorem det3_negM3 [Field α] (A : M3 α) : det3 (negM3 A) = -det3 A := by
  cases A
  simp only [negM3, det3]
  ring

theorem traceM3_mul_comm [Field α] (A B : M3 α) :
    traceM3 (mulM3 A B) = traceM3 (mulM3 B A) := by
  cases A; cases B
  simp only [mulM3, traceM3]
  ring

theorem mulM3_adj3 [Field α] (A : M3 α) :
    mulM3 A (adj3 A) = smulM3 (det3 A) id3 := by
  cases A
  simp only [mulM3, adj3, smulM3, det3, id3, M3.mk.injEq]
  refine ⟨?_, ?_, ?_, ?_, ?_, ?_, ?_, ?_, ?_⟩ <;> ring

theorem mulM3_smulM3 [Field α] (c : α) (A B : M3 α) :
    mulM3 A (smulM3 c B) = smulM3 c (mulM3 A B) := by
  cases A; cases B
  simp only [mulM3, smulM3, M3.mk.injEq]
  refine ⟨?_, ?_, ?_, ?_, ?_, ?_, ?_, ?_, ?_⟩ <;> ring

theorem smulM3_smulM3 [Field α] (c d : α) (A : M3 α) :
    smulM3 c (smulM3 d A) = smulM3 (c * d) A := by
  cases A
  simp only [smulM3, M3.mk.injEq]
  refine ⟨?_, ?_, ?_, ?_, ?_, ?_, ?_, ?_, ?_⟩ <;> ring

theorem smulM3_one [Field α] (A : M3 α) : smulM3 1 A = A := by
  cases A
  simp only [smulM3, M3.mk.injEq]
  refine ⟨?_, ?_, ?_, ?_, ?_, ?_, ?_, ?_, ?_⟩ <;> ring

theorem mulM3_inv3 [Field α] (A : M3 α) (h : det3 A ≠ 0) :
    mulM3 A (inv3 A) = id3 := by
  rw [inv3, mulM3_smulM3, mulM3_adj3, smulM3_smulM3, inv_mul_cancel₀ h,
    smulM3_one]

theorem givensUnit (c s : ℝ) (hs : s ≠ 0) :
    (c / Real.sqrt (c * c + s * s)) * (c / Real.sqrt (c * c + s * s)) +
      (s / Real.sqrt (c * c + s * s)) * (s / Real.sqrt (c * c + s * s)) = 1 := by
  have hpos : 0 < c * c + s * s := by
    nlinarith [mul_self_nonneg c, mul_self_pos.mpr hs]
  have hl : Real.sqrt (c * c + s * s) ≠ 0 :=
    ne_of_gt (Real.sqrt_pos.mpr hpos)
  field_simp

theorem qxOrtho (c s : ℝ) (h : c * c + s * s = 1) :
    mulM3 (⟨1, 0, 0, 0, c, -s, 0, s, c⟩ : M3 ℝ)
      (transposeM3 ⟨1, 0, 0, 0, c, -s, 0, s, c⟩) = id3 := by
  simp only [mulM3, transposeM3, id3, M3.mk.injEq]
  refine ⟨?_, ?_, ?_, ?_, ?_, ?_, ?_, ?_, ?_⟩ <;>
    first
      | ring1
      | linear_combination h

theorem qyOrtho (c s : ℝ) (h : c * c + s * s = 1) :
    mulM3 (⟨c, 0, s, 0, 1, 0, -s, 0, c⟩ : M3 ℝ)
      (transposeM3 ⟨c, 0, s, 0, 1, 0, -s, 0, c⟩) = id3 := by
  simp only [mulM3, transposeM3, id3, M3.mk.injEq]
  refine ⟨?_, ?_, ?_, ?_, ?_, ?_, ?_, ?_, ?_⟩ <;>
    first
      | ring1
      | linear_combination h

theorem qzOrtho (c s : ℝ) (h : c * c + s * s = 1) :
    mulM3 (⟨c, -s, 0, s, c, 0, 0, 0, 1⟩ : M3 ℝ)
      (transposeM3 ⟨c, -s, 0, s, c, 0, 0, 0, 1⟩) = id3 := by
  simp only [mulM3, transposeM3, id3, M3.mk.injEq]
  refine ⟨?_, ?_, ?_, ?_, ?_, ?_, ?_, ?_, ?_⟩ <;>
    first
      | ring1
      | linear_combination h

theorem rqStep1_mul (K Q : M3 ℝ) :
    mulM3 (rqStep1 K Q).1 (rqStep1 K Q).2 = mulM3 K Q := by
  simp only [rqStep1]
  split
  case isTrue h =>
    rw [mulM3_assoc, ← mulM3_assoc _ (transposeM3 _),
      qxOrtho _ _ (givensUnit (-K.m22) K.m21 h), mulM3_id_left]
  case isFalse h => rfl

theorem rqStep2_mul (K Q : M3 ℝ) :
    mulM3 (rqStep2 K Q).1 (rqStep2 K Q).2 = mulM3 K Q := by
  simp only [rqStep2]
  split
  case isTrue h =>
    rw [mulM3_assoc, ← mulM3_assoc _ (transposeM3 _),
      qyOrtho _ _ (givensUnit K.m22 K.m20 h), mulM3_id_left]
  case isFalse h => rfl

theorem rqStep3_mul (K Q : M3 ℝ) :
    mulM3 (rqStep3 K Q).1 (rqStep3 K Q).2 = mulM3 K Q := by
  simp only [rqStep3]
  split
  case isTrue h =>
    rw [mulM3_assoc, ← mulM3_assoc _ (transposeM3 _),
      qzOrtho _ _ (givensUnit (-K.m11) K.m10 h), mulM3_id_left]
  case isFalse h => rfl

theorem rqStep1_m21 (K Q : M3 ℝ) : (rqStep1 K Q).1.m21 = 0 := by
  simp only [rqStep1]
  split
  case isTrue h => simp only [mulM3]; ring
  case isFalse h => push_neg at h; exact h

theorem rqStep2_m21 (K Q : M3 ℝ) : (rqStep2 K Q).1.m21 = K.m21 := by
  simp only [rqStep2]
  split
  case isTrue h => simp only [mulM3]; ring
  case isFalse h => rfl

theorem rqStep2_m20 (K Q : M3 ℝ) : (rqStep2 K Q).1.m20 = 0 := by
  simp only [rqStep2]
  split
  case isTrue h => simp only [mulM3]; ring
  case isFalse h => push_neg at h; exact h

theorem rqStep3_m21 (K Q : M3 ℝ) (h20 : K.m20 = 0) (h21 : K.m21 = 0) :
    (rqStep3 K Q).1.m21 = 0 := by
  simp only [rqStep3]
  split
  case isTrue h => simp only [mulM3, h20, h21]; ring
  case isFalse h => exact h21

theorem rqStep3_m20 (K Q : M3 ℝ) (h20 : K.m20 = 0) (h21 : K.m21 = 0) :
    (rqStep3 K Q).1.m20 = 0 := by
  simp only [rqStep3]
  split
  case isTrue h => simp only [mulM3, h20, h21]; ring
  case isFalse h => exact h20

theorem rqStep3_m10 (K Q : M3 ℝ) : (rqStep3 K Q).1.m10 = 0 := by
  simp only [rqStep3]
  split
  case isTrue h => simp only [mulM3]; ring
  case isFalse h => push_neg at h; exact h

theorem det3_qx (c s : ℝ) :
    det3 (⟨1, 0, 0, 0, c, -s, 0, s, c⟩ : M3 ℝ) = c * c + s * s := by
  simp only [det3]; ring

theorem det3_qy (c s : ℝ) :
    det3 (⟨c, 0, s, 0, 1, 0, -s, 0, c⟩ : M3 ℝ) = c * c + s * s := by
  simp only [det3]; ring

theorem det3_qz (c s : ℝ) :
    det3 (⟨c, -s, 0, s, c, 0, 0, 0, 1⟩ : M3 ℝ) = c * c + s * s := by
  simp only [det3]; ring

theorem rqStep1_det (K Q : M3 ℝ) : det3 (rqStep1 K Q).1 = det3 K := by
  simp only [rqStep1]
  split
  case isTrue h =>
    rw [det3_mulM3, det3_qx, givensUnit (-K.m22) K.m21 h, mul_one]
  case isFalse h => rfl

theorem rqStep2_det (K Q : M3 ℝ) : det3 (rqStep2 K Q).1 = det3 K := by
  simp only [rqStep2]
  split
  case isTrue h =>
    rw [det3_mulM3, det3_qy, givensUnit K.m22 K.m20 h, mul_one]
  case isFalse h => rfl

theorem rqStep3_det (K Q : M3 ℝ) : det3 (rqStep3 K Q).1 = det3 K := by
  simp only [rqStep3]
  split
  case isTrue h =>
    rw [det3_mulM3, det3_qz, givensUnit (-K.m11) K.m10 h, mul_one]
  case isFalse h => rfl

theorem mulM3_negM3_negM3 [Field α] (A B : M3 α) :
    mulM3 (negM3 A) (negM3 B) = mulM3 A B := by
  cases A; cases B
  simp only [mulM3, negM3, M3.mk.injEq]
  refine ⟨?_, ?_, ?_, ?_, ?_, ?_, ?_, ?_, ?_⟩ <;> ring

theorem mulM3_sandwichS [Field α] (K R S : M3 α) (hS : mulM3 S S = id3) :
    mulM3 (mulM3 K S) (mulM3 S R) = mulM3 K R := by
  rw [mulM3_assoc, ← mulM3_assoc S, hS, mulM3_id_left]

theorem diagS1_sq [Field α] :
    mulM3 (diag3 (1 : α) (-1) 1) (diag3 1 (-1) 1) = id3 := by
  simp only [mulM3, diag3, id3, M3.mk.injEq]
  refine ⟨?_, ?_, ?_, ?_, ?_, ?_, ?_, ?_, ?_⟩ <;> ring

theorem diagS2_sq [Field α] :
    mulM3 (diag3 (-1 : α) 1 1) (diag3 (-1) 1 1) = id3 := by
  simp only [mulM3, diag3, id3, M3.mk.injEq]
  refine ⟨?_, ?_, ?_, ?_, ?_, ?_, ?_, ?_, ?_⟩ <;> ring

theorem krtFlip1_mul (K R : M3 ℝ) :
    mulM3 (krtFlip1 K R).1 (krtFlip1 K R).2 = mulM3 K R := by
  simp only [krtFlip1]
  split
  · exact mulM3_negM3_negM3 K R
  · rfl

theorem krtFlip2_mul (K R : M3 ℝ) :
    mulM3 (krtFlip2 K R).1 (krtFlip2 K R).2 = mulM3 K R := by
  simp only [krtFlip2]
  split
  · exact mulM3_sandwichS K R _ diagS1_sq
  · rfl

theorem krtFlip3_mul (K R : M3 ℝ) :
    mulM3 (krtFlip3 K R).1 (krtFlip3 K R).2 = mulM3 K R := by
  simp only [krtFlip3]
  split
  · exact mulM3_sandwichS K R _ diagS2_sq
  · rfl

theorem krtFlip1_m22 (K R : M3 ℝ) (h : K.m22 ≠ 0) :
    (krtFlip1 K R).1.m22 ≠ 0 := by
  simp only [krtFlip1]
  split
  · simpa only [negM3, neg_ne_zero] using h
  · exact h

theorem krtFlip2_m22 (K R : M3 ℝ) : (krtFlip2 K R).1.m22 = K.m22 := by
  simp only [krtFlip2]
  split
  · simp only [mulM3, diag3]; ring
  · rfl

theorem krtFlip3_m22 (K R : M3 ℝ) : (krtFlip3 K R).1.m22 = K.m22 := by
  simp only [krtFlip3]
  split
  · simp only [mulM3, diag3]; ring
  · rfl

theorem krtFlip1_det (K R : M3 ℝ) (h : det3 K ≠ 0) :
    det3 (krtFlip1 K R).1 ≠ 0 := by
  simp only [krtFlip1]
  split
  · simpa only [det3_negM3, neg_ne_zero] using h
  · exact h

theorem krtFlip2_det (K R : M3 ℝ) (h : det3 K ≠ 0) :
    det3 (krtFlip2 K R).1 ≠ 0 := by
  simp only [krtFlip2]
  split
  · rw [det3_mulM3]
    have hd : det3 (diag3 (1 : ℝ) (-1) 1) = -1 := by
      simp only [det3, diag3]; ring
    rw [hd]
    simpa using h
  · exact h

theorem krtFlip3_det (K R : M3 ℝ) (h : det3 K ≠ 0) :
    det3 (krtFlip3 K R).1 ≠ 0 := by
  simp only [krtFlip3]
  split
  · rw [det3_mulM3]
    have hd : det3 (diag3 (-1 : ℝ) 1 1) = -1 := by
      simp only [det3, diag3]; ring
    rw [hd]
    simpa using h
  · exact h

theorem det3_upperTriangular [Field α] (K : M3 α) (h10 : K.m10 = 0)
    (h20 : K.m20 = 0) (h21 : K.m21 = 0) :
    det3 K = K.m00 * K.m11 * K.m22 := by
  simp only [det3, h10, h20, h21]
  ring

theorem mulM3_smul_left [Field α] (c : α) (A B : M3 α) :
    mulM3 (smulM3 c A) B = smulM3 c (mulM3 A B) := by
  cases A; cases B
  simp only [mulM3, smulM3, M3.mk.injEq]
  refine ⟨?_, ?_, ?_, ?_, ?_, ?_, ?_, ?_, ?_⟩ <;> ring

theorem mulM3V3_mulM3 [Field α] (A B : M3 α) (v : V3 α) :
    mulM3V3 (mulM3 A B) v = mulM3V3 A (mulM3V3 B v) := by
  cases A; cases B; cases v
  simp only [mulM3, mulM3V3, V3.mk.injEq]
  refine ⟨?_, ?_, ?_⟩ <;> ring

theorem mulM3V3_id [Field α] (v : V3 α) : mulM3V3 id3 v = v := by
  cases v
  simp only [mulM3V3, id3, V3.mk.injEq]
  refine ⟨?_, ?_, ?_⟩ <;> ring

theorem mulM3V3_smul_left [Field α] (c : α) (A : M3 α) (v : V3 α) :
    mulM3V3 (smulM3 c A) v =
      ⟨c * (mulM3V3 A v).x, c * (mulM3V3 A v).y, c * (mulM3V3 A v).z⟩ := by
  cases A; cases v
  simp only [mulM3V3, smulM3, V3.mk.injEq]
  refine ⟨?_, ?_, ?_⟩ <;> ring

theorem mulM3M34_mk34 [Field α] (A R : M3 α) (t : V3 α) :
    mulM3M34 A (mk34 R t) = mk34 (mulM3 A R) (mulM3V3 A t) := rfl

theorem mk34_smul_eq [Field α] (P : M34 α) (c : α) :
    mk34 (smulM3 c (block3 P))
      ⟨c * (col3 P).x, c * (col3 P).y, c * (col3 P).z⟩ = smulM34 c P := by
  cases P
  rfl

/-- Supporting evidence for C2 (intended semantics): under the intended
third Givens step --- `Qz` given its 3x3 dimensions --- the claimed
roundtrip does hold: for every 3x4 projection matrix `P` with
non-singular leading 3x3 block,
`P_From_KRt (KRt_From_P P) = lam * P` for some nonzero scalar `lam`
(the reciprocal of the unnormalized `K(2,2)`).  The program as written,
`KRt_From_P_run`, crashes instead on every input entering that step. -/
theorem compose_after_decompose_scales (P : M34 ℝ)
    (h : det3 (block3 P) ≠ 0) :
    ∃ lam : ℝ, lam ≠ 0 ∧
      P_From_KRt (KRt_From_P P).1 (KRt_From_P P).2.1 (KRt_From_P P).2.2 =
        smulM34 lam P := by
  set M := block3 P with hM
  set s1 := rqStep1 M id3 with hs1
  set s2 := rqStep2 s1.1 s1.2 with hs2
  set s3 := rqStep3 s2.1 s2.2 with hs3
  set f1 := krtFlip1 s3.1 s3.2 with hf1
  set f2 := krtFlip2 f1.1 f1.2 with hf2
  set f3 := krtFlip3 f2.1 f2.2 with hf3
  have hprod : mulM3 f3.1 f3.2 = M := by
    rw [hf3, krtFlip3_mul, hf2, krtFlip2_mul, hf1, krtFlip1_mul,
      hs3, rqStep3_mul, hs2, rqStep2_mul, hs1, rqStep1_mul, mulM3_id_right]
  have h20 : s3.1.m20 = 0 := by
    rw [hs3]
    exact rqStep3_m20 _ _ (rqStep2_m20 _ _)
      (by rw [hs2, rqStep2_m21, hs1, rqStep1_m21])
  have h21 : s3.1.m21 = 0 := by
    rw [hs3]
    exact rqStep3_m21 _ _ (rqStep2_m20 _ _)
      (by rw [hs2, rqStep2_m21, hs1, rqStep1_m21])
  have h10 : s3.1.m10 = 0 := by
    rw [hs3]; exact rqStep3_m10 _ _
  have hdet : det3 s3.1 = det3 M := by
    rw [hs3, rqStep3_det, hs2, rqStep2_det, hs1, rqStep1_det]
  have hm22 : s3.1.m22 ≠ 0 := by
    have hud : det3 M = s3.1.m00 * s3.1.m11 * s3.1.m22 := by
      rw [← hdet, det3_upperTriangular s3.1 h10 h20 h21]
    intro hz
    apply h
    rw [hud, hz, mul_zero]
  have hf22 : f3.1.m22 ≠ 0 := by
    rw [hf3, krtFlip3_m22, hf2, krtFlip2_m22, hf1]
    exact krtFlip1_m22 _ _ hm22
  have hfdet : det3 f3.1 ≠ 0 := by
    rw [hf3]
    apply krtFlip3_det
    rw [hf2]
    apply krtFlip2_det
    rw [hf1]
    apply krtFlip1_det
    rw [hdet]
    exact h
  have hKRt : KRt_From_P P =
      (smulM3 (f3.1.m22)⁻¹ f3.1, f3.2, mulM3V3 (inv3 f3.1) (col3 P)) := by
    simp only [KRt_From_P]
  refine ⟨(f3.1.m22)⁻¹, inv_ne_zero hf22, ?_⟩
  simp only [hKRt]
  rw [P_From_KRt, mulM3M34_mk34, mulM3_smul_left, hprod, mulM3V3_smul_left,
    ← mulM3V3_mulM3, mulM3_inv3 f3.1 hfdet, mulM3V3_id, hM]
  exact mk34_smul_eq P _

/-- Instantiation of the intended-semantics roundtrip at the concrete
projection matrix `P = [diag(2, 3, 1) | 0]`, whose leading block has
determinant 6 (and never enters the broken third Givens branch). -/
theorem compose_after_decompose_scales_witness :
    det3 (block3 (⟨2, 0, 0, 0, 0, 3, 0, 0, 0, 0, 1, 0⟩ : M34 ℝ)) ≠ 0 ∧
      ∃ lam : ℝ, lam ≠ 0 ∧
        P_From_KRt
          (KRt_From_P (⟨2, 0, 0, 0, 0, 3, 0, 0, 0, 0, 1, 0⟩ : M34 ℝ)).1
          (KRt_From_P (⟨2, 0, 0, 0, 0, 3, 0, 0, 0, 0, 1, 0⟩ : M34 ℝ)).2.1
          (KRt_From_P (⟨2, 0, 0, 0, 0, 3, 0, 0, 0, 0, 1, 0⟩ : M34 ℝ)).2.2 =
          smulM34 lam (⟨2, 0, 0, 0, 0, 3, 0, 0, 0, 0, 1, 0⟩ : M34 ℝ) :=
  ⟨by norm_num [det3, block3],
   compose_after_decompose_scales _ (by norm_num [det3, block3])⟩

/-- Claim C1 --- evaluation of `KRt_From_P` at the failing input
`P = [diag(1, 1, -1) | 0]` (non-singular leading block, determinant -1):
the decomposition returns `K = I` (so `K(2,2) = 1`, `K(0,0) > 0`,
`K(1,1) > 0` as claimed) but `R = diag(1, 1, -1)` with determinant `-1`,
not `+1`: the three sign fixes make the diagonal of `K` positive without
keeping `det R = +1`, exactly as the source's own TODO comment admits
("Change this to ensure that ... det(R) = 1"). -/
theorem decompose_det_R_minus_one :
    KRt_From_P (⟨1, 0, 0, 0, 0, 1, 0, 0, 0, 0, -1, 0⟩ : M34 ℝ) =
      (id3, ⟨1, 0, 0, 0, 1, 0, 0, 0, -1⟩, v3zero) ∧
      det3 (⟨1, 0, 0, 0, 1, 0, 0, 0, -1⟩ : M3 ℝ) = -1 := by
  constructor
  · norm_num [KRt_From_P, rqStep1, rqStep2, rqStep3, krtFlip1, krtFlip2,
      krtFlip3, block3, col3, mulM3, mulM3V3, inv3, adj3, det3, smulM3,
      negM3, diag3, id3, v3zero, Prod.ext_iff]
  · norm_num [det3]

/-- Claim C7 (amended) --- `KRt_From_P` has no failure path and performs no
singularity check: on every projection matrix whose leading 3x3 block is
the zero matrix (a singular block) it still returns a `(K, R, t)` triple,
namely `(0, I, 0)`: the cofactor inverse of the zero matrix and the final
scaling divide by the zero determinant and the zero `K(2,2)` (total
division, yielding zero), and no error of any kind is reported. -/
theorem decompose_singular_returns (P : M34 ℝ) (h : block3 P = m3zero) :
    KRt_From_P P = (m3zero, id3, v3zero) := by
  norm_num [KRt_From_P, rqStep1, rqStep2, rqStep3, krtFlip1, krtFlip2,
    krtFlip3, h, mulM3V3, inv3, adj3, det3, smulM3, m3zero, id3, v3zero,
    col3, Prod.ext_iff]

/-- Witness for the amended C7 at a zero block with a nonzero fourth
column. -/
theorem decompose_singular_returns_witness :
    block3 (⟨0, 0, 0, 5, 0, 0, 0, 7, 0, 0, 0, 11⟩ : M34 ℝ) = m3zero ∧
      KRt_From_P (⟨0, 0, 0, 5, 0, 0, 0, 7, 0, 0, 0, 11⟩ : M34 ℝ) =
        (m3zero, id3, v3zero) :=
  ⟨by norm_num [block3, m3zero],
   decompose_singular_returns _ (by norm_num [block3, m3zero])⟩

/-- Counterexample to C7 as stated: on the all-zero projection matrix the
leading 3x3 block is singular, yet `KRt_From_P` does not fail with any
`SingularCalibration` error --- its signature has no error channel at all
--- and returns the triple `(0, I, 0)` computed through divisions by
zero. -/
theorem decompose_singular_counterexample :
    det3 (block3 (⟨0, 0, 0, 0, 0, 0, 0, 0, 0, 0, 0, 0⟩ : M34 ℝ)) = 0 ∧
      KRt_From_P (⟨0, 0, 0, 0, 0, 0, 0, 0, 0, 0, 0, 0⟩ : M34 ℝ) =
        (m3zero, id3, v3zero) := by
  constructor
  · norm_num [det3, block3]
  · norm_num [KRt_From_P, rqStep1, rqStep2, rqStep3, krtFlip1, krtFlip2,
      krtFlip3, block3, col3, mulM3V3, inv3, adj3, det3, smulM3, m3zero,
      id3, v3zero, Prod.ext_iff]

/-- Claim C10 --- the round trip `HomogeneousToEuclidean ∘
EuclideanToHomogeneous` is the identity on 2D points: the appended
homogeneous coordinate is exactly `1` and dividing by it changes
nothing. -/
theorem homogeneous_euclidean_roundtrip (x : V2 ℝ) :
    HomogeneousToEuclidean (EuclideanToHomogeneous x) = x := by
  cases x
  simp [HomogeneousToEuclidean, EuclideanToHomogeneous]

theorem foldl_replicate_fix {β γ : Type} (f : β → γ → β) (b : β) (c : γ)
    (hf : f b c = b) : ∀ n, List.foldl f b (List.replicate n c) = b := by
  intro n
  induction n with
  | zero => rfl
  | succ n ih => rw [List.replicate_succ, List.foldl_cons, hf, ih]

theorem bboxIter_id_first (W H : ℕ) (hW : 1 ≤ W) (hH : 1 ≤ H) :
    bboxIter (W : ℚ) (H : ℚ) id3 ⟨(W : ℤ), 0, (H : ℤ), 0⟩ =
      ⟨0, (W : ℤ), 0, (H : ℤ)⟩ := by
  have hW' : (0 : ℤ) < (W : ℤ) := by exact_mod_cast hW
  have hH' : (0 : ℤ) < (H : ℤ) := by exact_mod_cast hH
  have hWn : ¬((W : ℤ) < 0) := by omega
  have hHn : ¬((H : ℤ) < 0) := by omega
  simp [bboxIter, cornersOf, mapCorner, mulM3V3, id3, ceil0, bboxUpdate,
    hW', hH', hWn, hHn]

theorem bboxIter_id_fix (W H : ℕ) (hW : 1 ≤ W) (hH : 1 ≤ H) :
    bboxIter (W : ℚ) (H : ℚ) id3 ⟨0, (W : ℤ), 0, (H : ℤ)⟩ =
      ⟨0, (W : ℤ), 0, (H : ℤ)⟩ := by
  have hW' : (0 : ℤ) < (W : ℤ) := by exact_mod_cast hW
  have hH' : (0 : ℤ) < (H : ℤ) := by exact_mod_cast hH
  have hWn : ¬((W : ℤ) < 0) := by omega
  have hHn : ¬((H : ℤ) < 0) := by omega
  simp [bboxIter, cornersOf, mapCorner, mulM3V3, id3, ceil0, bboxUpdate,
    hW', hH', hWn, hHn]

/-- Claim C3 --- `ComputeGlobalBoundingBox` applied to a chain of `N ≥ 1`
identity transforms over identical `W x H` images returns the bounding box
`(xmin, xmax, ymin, ymax) = (0, W, 0, H)` exactly. -/
theorem bbox_identity_chain (N W H : ℕ) (hN : 1 ≤ N) (hW : 1 ≤ W)
    (hH : 1 ≤ H) :
    ComputeGlobalBoundingBox (W, H) (List.replicate N id3) =
      ⟨0, (W : ℤ), 0, (H : ℤ)⟩ := by
  obtain ⟨n, rfl⟩ : ∃ n, N = n + 1 := ⟨N - 1, by omega⟩
  simp only [ComputeGlobalBoundingBox, List.replicate_succ, List.foldl_cons]
  have hstep1 : bboxChainStep (W : ℚ) (H : ℚ) (id3, ⟨(W : ℤ), 0, (H : ℤ), 0⟩)
      id3 = (id3, ⟨0, (W : ℤ), 0, (H : ℤ)⟩) := by
    simp only [bboxChainStep, mulM3_id_left]
    rw [bboxIter_id_first W H hW hH]
  have hfix : bboxChainStep (W : ℚ) (H : ℚ) (id3, ⟨0, (W : ℤ), 0, (H : ℤ)⟩)
      id3 = (id3, ⟨0, (W : ℤ), 0, (H : ℤ)⟩) := by
    simp only [bboxChainStep, mulM3_id_left]
    rw [bboxIter_id_fix W H hW hH]
  rw [hstep1, foldl_replicate_fix _ _ _ hfix n]

/-- Witness for C3 at `N = 1`, `W = 1`, `H = 1`. -/
theorem bbox_identity_chain_witness :
    1 ≤ 1 ∧
      ComputeGlobalBoundingBox (1, 1) (List.replicate 1 id3) =
        ⟨0, 1, 0, 1⟩ :=
  ⟨le_refl 1, bbox_identity_chain 1 1 1 (le_refl 1) (le_refl 1) (le_refl 1)⟩

theorem bboxUpdate_bounds (b : Bbox) (p : ℤ × ℤ) :
    (bboxUpdate b p).xmin ≤ b.xmin ∧ b.xmax ≤ (bboxUpdate b p).xmax ∧
      (bboxUpdate b p).ymin ≤ b.ymin ∧ b.ymax ≤ (bboxUpdate b p).ymax := by
  simp only [bboxUpdate]
  split_ifs <;> simp_all <;> omega

theorem bboxIter_bounds (w h : ℚ) (Hm : M3 ℚ) (b : Bbox) :
    (bboxIter w h Hm b).xmin ≤ b.xmin ∧ b.xmax ≤ (bboxIter w h Hm b).xmax ∧
      (bboxIter w h Hm b).ymin ≤ b.ymin ∧
      b.ymax ≤ (bboxIter w h Hm b).ymax := by
  simp only [bboxIter, cornersOf, List.foldl_cons, List.foldl_nil]
  have t1 := bboxUpdate_bounds b (mapCorner Hm ⟨0, 0, 1⟩)
  have t2 := bboxUpdate_bounds (bboxUpdate b (mapCorner Hm ⟨0, 0, 1⟩))
    (mapCorner Hm ⟨0, h, 1⟩)
  have t3 := bboxUpdate_bounds
    (bboxUpdate (bboxUpdate b (mapCorner Hm ⟨0, 0, 1⟩))
      (mapCorner Hm ⟨0, h, 1⟩))
    (mapCorner Hm ⟨w, h, 1⟩)
  have t4 := bboxUpdate_bounds
    (bboxUpdate
      (bboxUpdate (bboxUpdate b (mapCorner Hm ⟨0, 0, 1⟩))
        (mapCorner Hm ⟨0, h, 1⟩))
      (mapCorner Hm ⟨w, h, 1⟩))
    (mapCorner Hm ⟨w, 0, 1⟩)
  omega

theorem bboxChain_bounds (w h : ℚ) :
    ∀ (Hs : List (M3 ℚ)) (acc : M3 ℚ × Bbox),
      (Hs.foldl (bboxChainStep w h) acc).2.xmin ≤ acc.2.xmin ∧
        acc.2.xmax ≤ (Hs.foldl (bboxChainStep w h) acc).2.xmax ∧
        (Hs.foldl (bboxChainStep w h) acc).2.ymin ≤ acc.2.ymin ∧
        acc.2.ymax ≤ (Hs.foldl (bboxChainStep w h) acc).2.ymax := by
  intro Hs
  induction Hs with
  | nil => intro acc; exact ⟨le_refl _, le_refl _, le_refl _, le_refl _⟩
  | cons Hi Hs ih =>
    intro acc
    rw [List.foldl_cons]
    have hstep : (bboxChainStep w h acc Hi).2.xmin ≤ acc.2.xmin ∧
        acc.2.xmax ≤ (bboxChainStep w h acc Hi).2.xmax ∧
        (bboxChainStep w h acc Hi).2.ymin ≤ acc.2.ymin ∧
        acc.2.ymax ≤ (bboxChainStep w h acc Hi).2.ymax := by
      simp only [bboxChainStep]
      exact bboxIter_bounds w h (mulM3 Hi acc.1) acc.2
    have ht := ih (bboxChainStep w h acc Hi)
    omega

/-- Claim C9 (amended) --- the bounding box returned by
`ComputeGlobalBoundingBox` always satisfies `xmin ≤ W`, `0 ≤ xmax`,
`ymin ≤ H`, `0 ≤ ymax` (the min fields only ever decrease from their
initializers `W` and `H`, the max fields only ever increase from `0`);
the claimed invariant `xmin ≤ xmax ∧ ymin ≤ ymax` does not hold for every
chain: the box is initialized to `(W, 0, H, 0)` and the first image's
corners are never folded in, so e.g. the empty chain returns `(W, 0, H, 0)`
itself. -/
theorem bbox_bounds (images_size : ℕ × ℕ) (Hs : List (M3 ℚ)) :
    (ComputeGlobalBoundingBox images_size Hs).xmin ≤ (images_size.1 : ℤ) ∧
      0 ≤ (ComputeGlobalBoundingBox images_size Hs).xmax ∧
      (ComputeGlobalBoundingBox images_size Hs).ymin ≤ (images_size.2 : ℤ) ∧
      0 ≤ (ComputeGlobalBoundingBox images_size Hs).ymax := by
  have hb := bboxChain_bounds (images_size.1 : ℚ) (images_size.2 : ℚ) Hs
    (id3, ⟨(images_size.1 : ℤ), 0, (images_size.2 : ℤ), 0⟩)
  simp only [ComputeGlobalBoundingBox]
  exact hb

/-- Counterexample to C9 as stated: for the empty transform chain over a
`1 x 1` image, `ComputeGlobalBoundingBox` returns its initializer
`(xmin, xmax, ymin, ymax) = (1, 0, 1, 0)`, which violates
`xmin ≤ xmax` (and `ymin ≤ ymax`). -/
theorem bbox_invariant_counterexample :
    ComputeGlobalBoundingBox (1, 1) [] = ⟨1, 0, 1, 0⟩ ∧
      ¬((ComputeGlobalBoundingBox (1, 1) []).xmin ≤
          (ComputeGlobalBoundingBox (1, 1) []).xmax) := by
  constructor
  · rfl
  · decide

/-- Claim C8 (amended) --- the dehomogenization inside
`ComputeGlobalBoundingBox` performs the division by the homogeneous
coordinate unconditionally: there is no zero check and no
`DegenerateProjection` error value anywhere in the function's signature.
When a mapped corner has homogeneous coordinate exactly `0`, the division
by zero is executed (the source divides `0.0` in IEEE arithmetic; the
embedding's total division yields `0`, so the corner is folded in as
`(0, 0)`), and the caller receives an ordinary bounding box. -/
theorem mapCorner_zero_denominator (Hm : M3 ℚ) (v : V3 ℚ)
    (h : (mulM3V3 Hm v).z = 0) : mapCorner Hm v = (0, 0) := by
  simp only [mapCorner, h, div_zero, ceil0, Int.ceil_zero]

/-- Witness for the amended C8: the transform with third row `(0, 0, 0)`
maps the corner `(0, 0, 1)` to homogeneous coordinate `0`. -/
theorem mapCorner_zero_denominator_witness :
    (mulM3V3 (⟨1, 0, 0, 0, 1, 0, 0, 0, 0⟩ : M3 ℚ) ⟨0, 0, 1⟩).z = 0 ∧
      mapCorner (⟨1, 0, 0, 0, 1, 0, 0, 0, 0⟩ : M3 ℚ) ⟨0, 0, 1⟩ = (0, 0) :=
  ⟨by norm_num [mulM3V3],
   mapCorner_zero_denominator _ _ (by norm_num [mulM3V3])⟩

/-- Counterexample to C8 as stated: running `ComputeGlobalBoundingBox` on
the transform `[[1,0,0],[0,1,0],[0,0,0]]` (third row zero), every mapped
corner has homogeneous coordinate `0`, yet the function reports no
`DegenerateProjection` error --- it has no error channel --- and returns
the ordinary bounding box `(0, 0, 0, 0)` computed through the divisions
by zero. -/
theorem bbox_degenerate_counterexample :
    (mulM3V3 (mulM3 (⟨1, 0, 0, 0, 1, 0, 0, 0, 0⟩ : M3 ℚ) id3) ⟨0, 0, 1⟩).z
        = 0 ∧
      ComputeGlobalBoundingBox (1, 1) [⟨1, 0, 0, 0, 1, 0, 0, 0, 0⟩] =
        ⟨0, 0, 0, 0⟩ := by
  constructor
  · norm_num [mulM3V3, mulM3, id3]
  · norm_num [ComputeGlobalBoundingBox, bboxChainStep, bboxIter, cornersOf,
      mapCorner, bboxUpdate, mulM3, mulM3V3, id3, ceil0]

theorem foldl_guard_append {β : Type} (p : β → Prop) [DecidablePred p]
    (g : β → M3 ℚ) :
    ∀ (l : List β) (acc : List (M3 ℚ)),
      l.foldl (fun As xs2 => if p xs2 then As ++ [g xs2] else As) acc =
        acc ++ (l.filter (fun xs2 => decide (p xs2))).map g := by
  intro l
  induction l with
  | nil => intro acc; simp
  | cons x l ih =>
    intro acc
    rw [List.foldl_cons]
    by_cases hx : p x
    · rw [if_pos hx, ih]
      simp [List.filter_cons, hx]
    · rw [if_neg hx, ih]
      simp [List.filter_cons, hx]

/-- Claim C6 (amended) --- an adjacent image pair whose correspondence
count is below the minimal sample size (2 for the affine chain, 4 for the
homography chain) is silently omitted: the chain builders return exactly
one matrix per pair that passes the guard, in order, append nothing for a
pair that fails it, and signal no error of any kind (their only output is
the list of matrices; the source's loop has no else branch, only the
comment "TODO(julien) what to do when no enough points?"). -/
theorem relative_matrices_skip_short_pairs
    (fit : List (V2 ℚ) → List (V2 ℚ) → M3 ℚ)
    (pairs : List (List (V2 ℚ) × List (V2 ℚ))) :
    ComputeRelativeAffineMatrices fit pairs =
        (pairs.filter (fun xs2 => 2 ≤ xs2.1.length)).map
          (fun xs2 => fit xs2.1 xs2.2) ∧
      ComputeRelativeHomographyMatrices fit pairs =
        (pairs.filter (fun xs2 => 4 ≤ xs2.1.length)).map
          (fun xs2 => fit xs2.1 xs2.2) := by
  constructor
  · rw [ComputeRelativeAffineMatrices,
      foldl_guard_append (fun xs2 => 2 ≤ xs2.1.length)
        (fun xs2 => fit xs2.1 xs2.2) pairs []]
    simp
  · rw [ComputeRelativeHomographyMatrices,
      foldl_guard_append (fun xs2 => 4 ≤ xs2.1.length)
        (fun xs2 => fit xs2.1 xs2.2) pairs []]
    simp

/-- Counterexample to C6 as stated: a two-image matches set whose single
adjacent pair has only one correspondence (below the affine minimal sample
of 2), and one with three correspondences (below the homography minimal
sample of 4).  The estimation step does not fail with any
`InsufficientCorrespondences` error --- the chain builders' only output is
the list of matrices --- and the pair is silently omitted: the returned
chain is empty instead of holding one transform per adjacent pair. -/
theorem relative_matrices_silent_omission :
    ComputeRelativeAffineMatrices (fun _ _ => id3)
        [([⟨0, 0⟩], [⟨0, 0⟩])] = [] ∧
      ComputeRelativeHomographyMatrices (fun _ _ => id3)
        [([⟨0, 0⟩, ⟨1, 0⟩, ⟨0, 1⟩], [⟨0, 0⟩, ⟨1, 0⟩, ⟨0, 1⟩])] = [] :=
  ⟨rfl, rfl⟩

theorem toRotationMatrix_orthoT [Field α] (q : V4 α)
    (h : q.x * q.x + q.y * q.y + q.z * q.z + q.w * q.w = 1) :
    mulM3 (transposeM3 (toRotationMatrix q)) (toRotationMatrix q) = id3 := by
  obtain ⟨x, y, z, w⟩ := q
  simp only at h
  simp only [toRotationMatrix, transposeM3, mulM3, id3, M3.mk.injEq]
  refine ⟨?_, ?_, ?_, ?_, ?_, ?_, ?_, ?_, ?_⟩
  · linear_combination (4 * (y * y + z * z)) * h
  · linear_combination (-(4 * x * y)) * h
  · linear_combination (-(4 * x * z)) * h
  · linear_combination (-(4 * x * y)) * h
  · linear_combination (4 * (x * x + z * z)) * h
  · linear_combination (-(4 * y * z)) * h
  · linear_combination (-(4 * x * z)) * h
  · linear_combination (-(4 * y * z)) * h
  · linear_combination (4 * (x * x + y * y)) * h

theorem det3_id3 [Field α] : det3 (id3 : M3 α) = 1 := by
  simp only [det3, id3]
  ring

theorem orthoT_flip [Field α] (W : M3 α)
    (h : mulM3 (transposeM3 W) W = id3) :
    mulM3 W (transposeM3 W) = id3 := by
  have hdet : det3 W * det3 W = 1 := by
    have hc := congrArg det3 h
    rw [det3_mulM3, det3_transposeM3, det3_id3] at hc
    exact hc
  have hdW : det3 W ≠ 0 := by
    intro h0
    rw [h0, mul_zero] at hdet
    exact zero_ne_one hdet
  have hT : transposeM3 W = inv3 W := by
    calc transposeM3 W = mulM3 (transposeM3 W) (mulM3 W (inv3 W)) := by
          rw [mulM3_inv3 W hdW, mulM3_id_right]
    _ = mulM3 (mulM3 (transposeM3 W) W) (inv3 W) := by rw [mulM3_assoc]
    _ = inv3 W := by rw [h, mulM3_id_left]
  rw [hT, mulM3_inv3 W hdW]

theorem svd_trace [Field α] (U V D : M3 α)
    (hU : mulM3 (transposeM3 U) U = id3)
    (hV : mulM3 (transposeM3 V) V = id3) :
    traceM3 (mulM3 (mulM3 (mulM3 U D) (transposeM3 V))
        (transposeM3 (mulM3 (mulM3 U D) (transposeM3 V)))) =
      traceM3 (mulM3 D (transposeM3 D)) := by
  rw [transposeM3_mul, transposeM3_transposeM3, transposeM3_mul]
  rw [mulM3_assoc (mulM3 U D), ← mulM3_assoc (transposeM3 V), hV,
    mulM3_id_left, traceM3_mul_comm, mulM3_assoc,
    ← mulM3_assoc (transposeM3 U), hU, mulM3_id_left, traceM3_mul_comm]

/-- Claim C4 (amended) --- when the two quaternion blocks of the parameter
vector are unit quaternions (`p[0..3]` and `p[5..8]` of unit norm), the
matrix returned by `FundamentalRank2Parameterization::To` has singular
values `(1, s, 0)` with `s = 1 / (1 + p[4]^2) ∈ (0, 1]`: it factors as
`U * diag(1, s, 0) * V^T` with orthogonal `U`, `V`, its third singular
value is `0` and its second is positive and at most the first.  For
unnormalized quaternion blocks this fails: `To` never normalizes (Eigen's
`toRotationMatrix` applies the unit-quaternion formula to the raw
coefficients), so the two outer factors need not be orthogonal. -/
theorem fundamental_to_singular_values (p : V9 ℝ)
    (hu : p.p0 * p.p0 + p.p1 * p.p1 + p.p2 * p.p2 + p.p3 * p.p3 = 1)
    (hv : p.p5 * p.p5 + p.p6 * p.p6 + p.p7 * p.p7 + p.p8 * p.p8 = 1) :
    hasSVD (FundamentalRank2To p) 1 (1 / (1 + p.p4 * p.p4)) 0 ∧
      0 < 1 / (1 + p.p4 * p.p4) ∧ 1 / (1 + p.p4 * p.p4) ≤ 1 := by
  refine ⟨⟨toRotationMatrix ⟨p.p0, p.p1, p.p2, p.p3⟩,
      transposeM3 (toRotationMatrix ⟨p.p5, p.p6, p.p7, p.p8⟩),
      ?_, ?_, ?_⟩, ?_, ?_⟩
  · exact toRotationMatrix_orthoT _ hu
  · rw [transposeM3_transposeM3]
    exact orthoT_flip _ (toRotationMatrix_orthoT _ hv)
  · simp only [FundamentalRank2To, transposeM3_transposeM3]
  · have hd : (0 : ℝ) < 1 + p.p4 * p.p4 := by nlinarith [mul_self_nonneg p.p4]
    positivity
  · have hd : (0 : ℝ) < 1 + p.p4 * p.p4 := by nlinarith [mul_self_nonneg p.p4]
    rw [div_le_one hd]
    nlinarith [mul_self_nonneg p.p4]

/-- Witness for the amended C4 at the unit parameter vector
`p = (0, 0, 0, 1, 0, 0, 0, 0, 1)` (both quaternion blocks are the unit
quaternion, `s` parameter `0`). -/
theorem fundamental_to_singular_values_witness :
    ((0 : ℝ) * 0 + 0 * 0 + 0 * 0 + 1 * 1 = 1) ∧
      (hasSVD (FundamentalRank2To (⟨0, 0, 0, 1, 0, 0, 0, 0, 1⟩ : V9 ℝ)) 1
          (1 / (1 + 0 * 0)) 0 ∧
        (0 : ℝ) < 1 / (1 + 0 * 0) ∧ (1 : ℝ) / (1 + 0 * 0) ≤ 1) :=
  ⟨by norm_num,
   fundamental_to_singular_values _ (by norm_num) (by norm_num)⟩

/-- Counterexample to C4 as stated: for the parameter vector
`p = (1/2, 1/2, 0, 0, 0, 0, 0, 0, 1)` --- whose first quaternion block has
norm `1/sqrt 2`, not `1` --- the claimed singular values would be
`(1, 1/(1+0^2), 0) = (1, 1, 0)`, but `ToMatrix(p)` is the rank-1 matrix
`[[1/2,1/2,0],[1/2,1/2,0],[0,0,0]]`, which admits no singular value
decomposition with diagonal `(1, 1, 0)`: the squared Frobenius norm of any
`U * diag(1,1,0) * V^T` with orthogonal `U`, `V` is `2`, while this
matrix's is `1`.  Its second singular value is in fact `0`, not positive:
`To` does not normalize the quaternions it is given. -/
theorem fundamental_to_counterexample :
    ¬ hasSVD (FundamentalRank2To
        (⟨1/2, 1/2, 0, 0, 0, 0, 0, 0, 1⟩ : V9 ℚ)) 1 1 0 := by
  rintro ⟨U, V, hU, hV, heq⟩
  have h2 := svd_trace U V (diag3 1 1 0) hU hV
  rw [← heq] at h2
  have h1 : traceM3 (mulM3
      (FundamentalRank2To (⟨1/2, 1/2, 0, 0, 0, 0, 0, 0, 1⟩ : V9 ℚ))
      (transposeM3
        (FundamentalRank2To (⟨1/2, 1/2, 0, 0, 0, 0, 0, 0, 1⟩ : V9 ℚ)))) =
      1 := by
    norm_num [FundamentalRank2To, toRotationMatrix, diag3, mulM3,
      transposeM3, traceM3]
  have h3 : traceM3 (mulM3 (diag3 (1 : ℚ) 1 0)
      (transposeM3 (diag3 1 1 0))) = 2 := by
    norm_num [diag3, mulM3, transposeM3, traceM3]
  rw [h1, h3] at h2
  norm_num at h2

theorem quatNormalize_unit (q : V4 ℝ)
    (h : q.x * q.x + q.y * q.y + q.z * q.z + q.w * q.w = 1) :
    quatNormalize q = q := by
  simp only [quatNormalize, h, Real.sqrt_one, div_one]

theorem mulM3_negM3_left [Field α] (A B : M3 α) :
    mulM3 (negM3 A) B = negM3 (mulM3 A B) := by
  cases A; cases B
  simp only [mulM3, negM3, M3.mk.injEq]
  refine ⟨?_, ?_, ?_, ?_, ?_, ?_, ?_, ?_, ?_⟩ <;> ring

theorem mulM3_negM3_right [Field α] (A B : M3 α) :
    mulM3 A (negM3 B) = negM3 (mulM3 A B) := by
  cases A; cases B
  simp only [mulM3, negM3, M3.mk.injEq]
  refine ⟨?_, ?_, ?_, ?_, ?_, ?_, ?_, ?_, ?_⟩ <;> ring

theorem negM3_smulM3 [Field α] (c : α) (A : M3 α) :
    negM3 (smulM3 c A) = smulM3 (-c) A := by
  cases A
  simp only [negM3, smulM3, M3.mk.injEq]
  refine ⟨?_, ?_, ?_, ?_, ?_, ?_, ?_, ?_, ?_⟩ <;> ring

theorem scale_middle [Field α] (A B : M3 α) (s0 s1 : α) (h : s0 ≠ 0) :
    mulM3 (mulM3 A (diag3 1 (s1 / s0) 0)) B =
      smulM3 (1 / s0) (mulM3 (mulM3 A (diag3 s0 s1 0)) B) := by
  cases A; cases B
  simp only [mulM3, diag3, smulM3, M3.mk.injEq]
  refine ⟨?_, ?_, ?_, ?_, ?_, ?_, ?_, ?_, ?_⟩ <;> field_simp <;> ring

/-- Claim C5 --- round trip of the rank-2 parameterization: if
`M = U * diag(s0, s1, s2) * V^T` is a singular value decomposition of `M`
(orthogonal `U`, `V`; `s0 >= s1 > 0`, i.e. nonzero second singular value),
and `qu`, `qv` are the unit quaternions Eigen's conversion produces for
the sign-corrected factors (`qu` represents `U` or `-U` according to the
source's determinant test, `qv` likewise represents `V^T` or `-V^T`), then
`ToMatrix(FromMatrix(M))` equals the rank-2 truncation
`closestRank2 U V s0 s1` --- the Frobenius-closest rank-2 approximation of
`M` by Eckart-Young, which is how the source's comment describes it ---
up to a nonzero overall scale factor (`±1/s0`).  Exact equality with `M`
itself holds only up to that rank-2 projection and scale. -/
theorem fundamental_roundtrip (U V : M3 ℝ) (s0 s1 s2 : ℝ) (qu qv : V4 ℝ)
    (M : M3 ℝ)
    (_hUo : mulM3 (transposeM3 U) U = id3)
    (_hVo : mulM3 (transposeM3 V) V = id3)
    (_hM : M = mulM3 (mulM3 U (diag3 s0 s1 s2)) (transposeM3 V))
    (hs1 : 0 < s1) (hs01 : s1 ≤ s0)
    (hqu : qu.x * qu.x + qu.y * qu.y + qu.z * qu.z + qu.w * qu.w = 1)
    (hqv : qv.x * qv.x + qv.y * qv.y + qv.z * qv.z + qv.w * qv.w = 1)
    (hRu : toRotationMatrix qu = if 0 < det3 U then U else negM3 U)
    (hRv : toRotationMatrix qv =
      if 0 < det3 V then transposeM3 V else negM3 (transposeM3 V)) :
    ∃ c : ℝ, c ≠ 0 ∧
      FundamentalRank2To (FundamentalRank2From s0 s1 qu qv) =
        smulM3 c (closestRank2 U V s0 s1) := by
  have hs0 : (0 : ℝ) < s0 := lt_of_lt_of_le hs1 hs01
  have hs0n : s0 ≠ 0 := ne_of_gt hs0
  have hfrom : FundamentalRank2From s0 s1 qu qv =
      ⟨qu.x, qu.y, qu.z, qu.w, Real.sqrt (s0 / s1 - 1),
        qv.x, qv.y, qv.z, qv.w⟩ := by
    simp only [FundamentalRank2From, quatNormalize_unit qu hqu,
      quatNormalize_unit qv hqv]
  have harg : 0 ≤ s0 / s1 - 1 := by
    rw [sub_nonneg, le_div_iff₀ hs1]
    linarith
  have hsigma : 1 / (1 + Real.sqrt (s0 / s1 - 1) * Real.sqrt (s0 / s1 - 1))
      = s1 / s0 := by
    rw [Real.mul_self_sqrt harg]
    have he : (1 : ℝ) + (s0 / s1 - 1) = s0 / s1 := by ring
    rw [he, one_div_div]
  rw [hfrom]
  simp only [FundamentalRank2To]
  rw [hsigma, hRu, hRv]
  split_ifs with h1 h2 h3
  · exact ⟨1 / s0, one_div_ne_zero hs0n,
      by rw [closestRank2, scale_middle U (transposeM3 V) s0 s1 hs0n]⟩
  · refine ⟨-(1 / s0), neg_ne_zero.mpr (one_div_ne_zero hs0n), ?_⟩
    rw [closestRank2, mulM3_negM3_right,
      scale_middle U (transposeM3 V) s0 s1 hs0n, negM3_smulM3]
  · refine ⟨-(1 / s0), neg_ne_zero.mpr (one_div_ne_zero hs0n), ?_⟩
    rw [closestRank2, mulM3_negM3_left, mulM3_negM3_left,
      scale_middle U (transposeM3 V) s0 s1 hs0n, negM3_smulM3]
  · refine ⟨1 / s0, one_div_ne_zero hs0n, ?_⟩
    rw [closestRank2, mulM3_negM3_left, mulM3_negM3_left, mulM3_negM3_right,
      scale_middle U (transposeM3 V) s0 s1 hs0n, negM3_smulM3, negM3_smulM3,
      neg_neg]

/-- Witness for C5 at `M = diag(2, 1, 0)` with the trivial decomposition
`U = V = I`, singular values `(2, 1, 0)` and identity quaternions. -/
theorem fundamental_roundtrip_witness :
    (mulM3 (transposeM3 (id3 : M3 ℝ)) id3 = id3) ∧
      (mulM3 (mulM3 (id3 : M3 ℝ) (diag3 2 1 0)) (transposeM3 id3) =
        mulM3 (mulM3 id3 (diag3 2 1 0)) (transposeM3 id3)) ∧
      ((0 : ℝ) < 1) ∧ ((1 : ℝ) ≤ 2) ∧
      ((0 : ℝ) * 0 + 0 * 0 + 0 * 0 + 1 * 1 = 1) ∧
      (toRotationMatrix (⟨0, 0, 0, 1⟩ : V4 ℝ) =
        if 0 < det3 (id3 : M3 ℝ) then id3 else negM3 id3) ∧
      (toRotationMatrix (⟨0, 0, 0, 1⟩ : V4 ℝ) =
        if 0 < det3 (id3 : M3 ℝ) then transposeM3 id3
        else negM3 (transposeM3 id3)) ∧
      ∃ c : ℝ, c ≠ 0 ∧
        FundamentalRank2To
            (FundamentalRank2From 2 1 (⟨0, 0, 0, 1⟩ : V4 ℝ) ⟨0, 0, 0, 1⟩) =
          smulM3 c (closestRank2 id3 id3 2 1) := by
  have hid : mulM3 (transposeM3 (id3 : M3 ℝ)) id3 = id3 := by
    norm_num [mulM3, transposeM3, id3, M3.mk.injEq]
  have hdet : (0 : ℝ) < det3 (id3 : M3 ℝ) := by
    rw [det3_id3]
    norm_num
  have hRu : toRotationMatrix (⟨0, 0, 0, 1⟩ : V4 ℝ) =
      if 0 < det3 (id3 : M3 ℝ) then id3 else negM3 id3 := by
    rw [if_pos hdet]
    norm_num [toRotationMatrix, id3, M3.mk.injEq]
  have hRv : toRotationMatrix (⟨0, 0, 0, 1⟩ : V4 ℝ) =
      if 0 < det3 (id3 : M3 ℝ) then transposeM3 id3
      else negM3 (transposeM3 id3) := by
    rw [if_pos hdet]
    norm_num [toRotationMatrix, transposeM3, id3, M3.mk.injEq]
  exact ⟨hid, rfl, one_pos, by norm_num, by norm_num, hRu, hRv,
    fundamental_roundtrip id3 id3 2 1 0 ⟨0, 0, 0, 1⟩ ⟨0, 0, 0, 1⟩
      (mulM3 (mulM3 id3 (diag3 2 1 0)) (transposeM3 id3)) hid hid rfl
      one_pos (by norm_num) (by norm_num) (by norm_num) hRu hRv⟩

theorem KRt_From_P_run_agrees (P : M34 ℝ)
    (h : (rqStep2 (rqStep1 (block3 P) id3).1
        (rqStep1 (block3 P) id3).2).1.m10 = 0) :
    KRt_From_P_run P = some (KRt_From_P P) := by
  simp only [KRt_From_P_run, KRt_From_P, rqStep3Checked, rqStep3,
    if_neg (not_not_intro h)]

/-- Claim C2 --- evaluation of the decomposition, as the program actually
executes it, at the failing input `P = [[1,0,0],[1,1,0],[0,0,1] | 0]`:
the leading 3x3 block is non-singular (determinant `1`), the first two
Givens steps are skipped (`K(2,1) = K(2,0) = 0`), and the third is entered
with `K(1,0) = 1 != 0`, where the source comma-initializes the unsized
0x0 dynamic `Mat Qz` (an Eigen assertion failure / out-of-bounds write,
in contrast to `Mat Qx(3,3)` and `Mat Qy(3,3)` above it).  The program
crashes and returns no decomposition at all, so `Compose(Decompose(P))`
cannot reproduce `P`.  Under the intended 3x3 `Qz` the roundtrip provably
holds (`compose_after_decompose_scales`), so the claim describes the
intent and the unsized declaration is the slip. -/
theorem decompose_crashes_on_third_givens :
    det3 (block3 (⟨1, 0, 0, 0, 1, 1, 0, 0, 0, 0, 1, 0⟩ : M34 ℝ)) ≠ 0 ∧
      KRt_From_P_run (⟨1, 0, 0, 0, 1, 1, 0, 0, 0, 0, 1, 0⟩ : M34 ℝ) =
        none := by
  constructor
  · norm_num [det3, block3]
  · norm_num [KRt_From_P_run, rqStep1, rqStep2, rqStep3Checked, block3]
